import Mathlib

/-!
A shallow embedding of the HTTP client core of `src/http.rs` — the header
map, the two request serializers, and `Response::parse` — together with
proofs about it.

Byte buffers are modelled as `List Nat`, one `Nat` per byte.  Rust
`String`s are UTF-8 byte vectors and are likewise modelled as `List Nat`.
Rust panics (out-of-range indexing/slicing, failed `assert_eq!`) are a
distinct outcome `PResult.panic`, separate from `PResult.err`, which
models an `anyhow::Error` returned to the caller through `Result`.
-/

/-- Outcome of a fallible Rust computation: success, a returned typed
error (`anyhow::Error` carrying a human-readable cause), or a panic. -/
inductive PResult (α : Type) where
  | ok : α → PResult α
  | err : String → PResult α
  | panic : String → PResult α
deriving DecidableEq

/-- Bytes of an ASCII string literal. -/
def ascii (s : String) : List Nat := s.toList.map Char.toNat

/-- ASCII lower-casing of one byte.  (The source calls Rust's Unicode
`str::to_lowercase`; every header name and value this development
manipulates is ASCII, where the two agree.) -/
def lowerByte (c : Nat) : Nat := if 65 ≤ c ∧ c ≤ 90 then c + 32 else c

/-- `str::to_lowercase` on a byte string. -/
def toLower (s : List Nat) : List Nat := s.map lowerByte

/-- Lexicographic byte order on keys, the order `BTreeMap<String, _>`
uses (Rust compares `String`s by their UTF-8 bytes). -/
def lexLt : List Nat → List Nat → Bool
  | _, [] => false
  | [], _ :: _ => true
  | a :: as, b :: bs => if a < b then true else if b < a then false else lexLt as bs

/-- Sorted-association-list model of `BTreeMap<String, String>`
insertion: keeps keys in ascending `lexLt` order, overwrites an equal
key. -/
def mapInsert (k v : List Nat) : List (List Nat × List Nat) → List (List Nat × List Nat)
  | [] => [(k, v)]
  | (k', v') :: rest =>
    if lexLt k k' then (k, v) :: (k', v') :: rest
    else if k = k' then (k, v) :: rest
    else (k', v') :: mapInsert k v rest

/-- `BTreeMap` lookup on the association-list model. -/
def mapLookup (k : List Nat) : List (List Nat × List Nat) → Option (List Nat)
  | [] => none
  | (k', v') :: rest => if k = k' then some v' else mapLookup k rest

/-- `BTreeMap::remove` on the association-list model. -/
def mapRemove (k : List Nat) : List (List Nat × List Nat) → List (List Nat × List Nat)
  | [] => []
  | (k', v') :: rest => if k = k' then rest else (k', v') :: mapRemove k rest

/-- `Headers(BTreeMap<String, String>)` from `src/http.rs` (line 146). -/
structure Headers where
  entries : List (List Nat × List Nat)
deriving DecidableEq

/-- `Headers::insert`: lower-cases the key, stores/overwrites the value. -/
def Headers.insert (m : Headers) (key val : List Nat) : Headers :=
  ⟨mapInsert (toLower key) val m.entries⟩

/-- `Headers::get`: lower-cases the key and looks it up. -/
def Headers.get (m : Headers) (key : List Nat) : Option (List Nat) :=
  mapLookup (toLower key) m.entries

/-- `Headers::contains`: case-insensitive key-existence check. -/
def Headers.contains (m : Headers) (key : List Nat) : Bool :=
  (m.get key).isSome

/-- `Headers::remove`: deletes by the lower-cased key. -/
def Headers.remove (m : Headers) (key : List Nat) : Headers :=
  ⟨mapRemove (toLower key) m.entries⟩

/-- The `BTreeMap` structural invariant: keys strictly ascending. -/
def Headers.Wf (m : Headers) : Prop :=
  m.entries.Pairwise (fun a b => lexLt a.1 b.1 = true)

/-- Decimal digit value, for `str::parse::<uN>`. -/
def digitValDec (c : Nat) : Option Nat :=
  if 48 ≤ c ∧ c ≤ 57 then some (c - 48) else none

/-- Hexadecimal digit value (both cases), for `usize::from_str_radix(_, 16)`. -/
def digitValHex (c : Nat) : Option Nat :=
  if 48 ≤ c ∧ c ≤ 57 then some (c - 48)
  else if 97 ≤ c ∧ c ≤ 102 then some (c - 87)
  else if 65 ≤ c ∧ c ≤ 70 then some (c - 55)
  else none

/-- Digit-folding loop shared by the integer parsers; fails on a
non-digit byte or on overflow past `bound`. -/
def parseDigitsLoop (dv : Nat → Option Nat) (base bound : Nat) : Nat → List Nat → Option Nat
  | acc, [] => some acc
  | acc, c :: rest =>
    match dv c with
    | none => none
    | some d =>
      if bound < base * acc + d then none
      else parseDigitsLoop dv base bound (base * acc + d) rest

/-- Rust's unsigned-integer parsing (`str::parse::<uN>`,
`from_str_radix`): an optional leading `+`, then one or more digits. -/
def parseUnsigned (dv : Nat → Option Nat) (base bound : Nat) (s : List Nat) : Option Nat :=
  let s' := match s with | 43 :: rest => rest | _ => s
  match s' with
  | [] => none
  | _ => parseDigitsLoop dv base bound 0 s'

def usizeMax : Nat := 18446744073709551615

/-- `parts[1].parse::<u16>()`. -/
def parseU16 (s : List Nat) : Option Nat := parseUnsigned digitValDec 10 65535 s

/-- `value.parse::<usize>()`. -/
def parseUsize (s : List Nat) : Option Nat := parseUnsigned digitValDec 10 usizeMax s

/-- `usize::from_str_radix(octets, 16)`. -/
def parseHexUsize (s : List Nat) : Option Nat := parseUnsigned digitValHex 16 usizeMax s

/-- UTF-8 continuation byte (`0x80..=0xBF`). -/
def contByte (c : Nat) : Bool := decide (128 ≤ c ∧ c < 192)

/-- Validity check of Rust's `String::from_utf8` (strict UTF-8: rejects
stray continuation bytes, overlong forms, surrogates, and values past
U+10FFFF). -/
def utf8Valid : List Nat → Bool
  | [] => true
  | c :: rest =>
    if c < 128 then utf8Valid rest
    else if c < 194 then false
    else if c < 224 then
      match rest with
      | c1 :: r => contByte c1 && utf8Valid r
      | [] => false
    else if c < 240 then
      match rest with
      | c1 :: c2 :: r =>
        (if c = 224 then decide (160 ≤ c1 ∧ c1 < 192)
         else if c = 237 then decide (128 ≤ c1 ∧ c1 < 160)
         else contByte c1) && contByte c2 && utf8Valid r
      | _ => false
    else if c < 245 then
      match rest with
      | c1 :: c2 :: c3 :: r =>
        (if c = 240 then decide (144 ≤ c1 ∧ c1 < 192)
         else if c = 244 then decide (128 ≤ c1 ∧ c1 < 144)
         else contByte c1) && contByte c2 && contByte c3 && utf8Valid r
      | _ => false
    else false

/-- First split at a space byte, used by `str::splitn(_, ' ')`. -/
def splitOnceSp : List Nat → Option (List Nat × List Nat)
  | [] => none
  | 32 :: rest => some ([], rest)
  | c :: rest =>
    match splitOnceSp rest with
    | some (a, b) => some (c :: a, b)
    | none => none

/-- `str::splitn(n, ' ')`. -/
def splitn : Nat → List Nat → List (List Nat)
  | 0, _ => []
  | 1, s => [s]
  | n + 2, s =>
    match splitOnceSp s with
    | none => [s]
    | some (a, b) => a :: splitn (n + 1) b

/-- `str::split_once(": ")`: split at the first occurrence of `": "`. -/
def splitOnceColonSp : List Nat → Option (List Nat × List Nat)
  | [] => none
  | 58 :: 32 :: rest => some ([], rest)
  | c :: rest =>
    match splitOnceColonSp rest with
    | some (a, b) => some (c :: a, b)
    | none => none

/-- Strip one trailing `\r`: `if line.ends_with(b"\r") { line = &line[..line.len() - 1] }`. -/
def stripCr (l : List Nat) : List Nat :=
  if l.getLast? = some 13 then l.dropLast else l

/-- The mutable locals of `Response::parse` during the line scan. -/
structure ScanState where
  status_code : Nat
  status_message : List Nat
  headers : Headers
  content_length : Nat
  is_chunked : Bool
  pos : Nat
deriving DecidableEq

def clKey : List Nat := ascii "content-length"
def teKey : List Nat := ascii "transfer-encoding"
def chunkedVal : List Nat := ascii "chunked"

/-- Effect of processing one line of the scan loop. -/
inductive LineStep where
  | err : String → LineStep
  | panic : String → LineStep
  | stop : ScanState → LineStep
  | next : Bool → ScanState → LineStep
deriving DecidableEq

/-- One iteration of the line loop of `Response::parse` (lines 241-280):
`isHeader = false` is the `Status` parser state, `true` the `Header`
state; `p` is the already-advanced byte offset `pos`; `line` has had a
trailing `\r` stripped.  Mirrors the source order: in the `Status` state
`parts[1]` is indexed (panic on out of bounds), parsed (error), then
`parts[2]` indexed (panic); in the `Header` state an empty line breaks,
then UTF-8 is checked, the line split on `": "`, the pair inserted, and
the `content-length` / `transfer-encoding` cases applied. -/
def processLine (isHeader : Bool) (st : ScanState) (p : Nat) (line : List Nat) : LineStep :=
  if isHeader then
    if line.isEmpty then .stop { st with pos := p }
    else if utf8Valid line then
      match splitOnceColonSp line with
      | none => .err "Invalid header"
      | some (key, val) =>
        let st' := { st with pos := p, headers := st.headers.insert key val }
        if toLower key = clKey then
          match parseUsize val with
          | some n => .next true { st' with content_length := n }
          | none => .err "invalid digit found in string"
        else if toLower key = teKey then
          if toLower val = chunkedVal then .next true { st' with is_chunked := true }
          else .err "Unknown transfer-encoding value"
        else .next true st'
    else .err "invalid utf-8 sequence"
  else
    if utf8Valid line then
      let parts := splitn 3 line
      match parts[1]? with
      | none => .panic "index out of bounds"
      | some p1 =>
        match parseU16 p1 with
        | none => .err "invalid digit found in string"
        | some code =>
          match parts[2]? with
          | none => .panic "index out of bounds"
          | some msg =>
            .next true { st with pos := p, status_code := code, status_message := msg }
    else .err "invalid utf-8 sequence"

/-- The `for line in bytes.split(|&c| c == b'\n')` loop of
`Response::parse`, fuelled.  The fuel `bytes.length + 1` supplied by
`scanTop` can never run out, since every iteration consumes at least one
byte of the buffer. -/
def scanLinesF : Nat → Bool → ScanState → List Nat → PResult ScanState
  | 0, _, _, _ => .panic "unreachable: out of fuel"
  | fuel + 1, isHeader, st, buf =>
    let line0 := buf.takeWhile (fun c => c != 10)
    match processLine isHeader st (st.pos + line0.length + 1) (stripCr line0) with
    | .err e => .err e
    | .panic e => .panic e
    | .stop st' => .ok st'
    | .next isHeader' st' =>
      if line0.length = buf.length then .ok st'
      else scanLinesF fuel isHeader' st' (buf.drop (line0.length + 1))

def initState : ScanState := ⟨0, [], ⟨[]⟩, 0, false, 0⟩

/-- The whole status/header scan of `Response::parse`. -/
def scanTop (bytes : List Nat) : PResult ScanState :=
  scanLinesF (bytes.length + 1) false initState bytes

/-- The chunked-body loop of `Response::parse` (lines 282-302), fuelled
(again the initial fuel can never run out).  `parts.next()` on a slice
split always yields the segment before the first `\r`, so its
`ok_or_else` error can never fire and `octets` is `takeWhile (!= 13)`.
Failed `assert_eq!` and out-of-range slicing are panics; a malformed hex
size line is a returned error, following the source order: the `\r\n`
after the size line is asserted before the size is parsed. -/
def decodeChunksF : Nat → List Nat → List Nat → PResult (List Nat)
  | 0, _, _ => .panic "unreachable: out of fuel"
  | fuel + 1, body, slice =>
    let octets := slice.takeWhile (fun c => c != 13)
    if octets.length + 2 ≤ slice.length then
      if (slice.drop octets.length).take 2 = [13, 10] then
        let remaining := slice.drop (octets.length + 2)
        if utf8Valid octets then
          match parseHexUsize octets with
          | none => .err "invalid digit found in string"
          | some len =>
            if len = 0 then .ok body
            else if len + 2 ≤ remaining.length then
              if (remaining.drop len).take 2 = [13, 10] then
                decodeChunksF fuel (body ++ remaining.take len) (remaining.drop (len + 2))
              else .panic "assertion failed"
            else .panic "slice index out of range"
        else .err "invalid utf-8 sequence"
      else .panic "assertion failed"
    else .panic "slice index out of range"

/-- `Response` from `src/http.rs` (lines 222-227). -/
structure Response where
  status_code : Nat
  status_message : List Nat
  headers : Headers
  body : List Nat
deriving DecidableEq

/-- `Response::parse` (lines 230-317).  After the line scan: the chunked
path first takes `&bytes[pos..]` (panic when `pos` exceeds the buffer)
and runs the chunk loop; the non-chunked path defaults a zero
`content_length` to the rest of the buffer (`saturating_sub`) and slices
`&bytes[pos..pos + content_length]` (panic when the end exceeds the
buffer). -/
def Response.parse (bytes : List Nat) : PResult Response :=
  match scanTop bytes with
  | .err e => .err e
  | .panic e => .panic e
  | .ok st =>
    if st.is_chunked then
      if st.pos ≤ bytes.length then
        match decodeChunksF ((bytes.drop st.pos).length + 1) [] (bytes.drop st.pos) with
        | .ok body => .ok ⟨st.status_code, st.status_message, st.headers, body⟩
        | .err e => .err e
        | .panic e => .panic e
      else .panic "range start index out of range"
    else
      let cl := if st.content_length = 0 then bytes.length - st.pos else st.content_length
      if st.pos + cl ≤ bytes.length then
        .ok ⟨st.status_code, st.status_message, st.headers, (bytes.drop st.pos).take cl⟩
      else .panic "range end index out of range"

/-- Digits of `n` in base 10, least significant first, fuelled. -/
def natToDecAux : Nat → Nat → List Nat
  | 0, _ => []
  | fuel + 1, n => if n = 0 then [] else (48 + n % 10) :: natToDecAux fuel (n / 10)

/-- Decimal rendering of a `usize` (Rust `ToString`), as bytes. -/
def natToDec (n : Nat) : List Nat :=
  if n = 0 then [48] else (natToDecAux (n + 1) n).reverse

/-- Lower-case hex digit byte for a value below 16. -/
def hexDigitChar (d : Nat) : Nat := if d < 10 then 48 + d else 87 + d

/-- Digits of `n` in base 16, least significant first, fuelled. -/
def natToHexAux : Nat → Nat → List Nat
  | 0, _ => []
  | fuel + 1, n => if n = 0 then [] else hexDigitChar (n % 16) :: natToHexAux fuel (n / 16)

/-- Lower-case hexadecimal rendering (Rust's `{:x}` format), as bytes. -/
def natToHex (n : Nat) : List Nat :=
  if n = 0 then [48] else (natToHexAux (n + 1) n).reverse

/-- `Request` from `src/http.rs` (lines 171-176). -/
structure Request where
  method : List Nat
  path : List Nat
  headers : Headers
  body : Option (List Nat)

/-- The `for (key, value) in self.headers.iter()` serialization loop:
one `<key>: <value>\r\n` line per entry, in the map's ascending key
order. -/
def headerBlock (m : Headers) : List Nat :=
  (m.entries.map (fun kv => kv.1 ++ [58, 32] ++ kv.2 ++ [13, 10])).flatten

/-- `Request::send_v10` (lines 179-196), as the byte stream it writes. -/
def Request.send_v10 (req : Request) : List Nat :=
  let body := req.body.getD []
  let headers := req.headers.insert (ascii "Content-Length") (natToDec body.length)
  req.method ++ [32] ++ req.path ++ ascii " HTTP/1.0" ++ [13, 10]
    ++ headerBlock headers ++ [13, 10]
    ++ (if body.isEmpty then [] else body)

/-- The chunk framing `send_v11` writes after the blank line (lines
210-216): one chunk for a non-empty body, then the terminal
`0\r\n\r\n`. -/
def chunkFramingOf (body : List Nat) : List Nat :=
  (if body.isEmpty then [] else natToHex body.length ++ [13, 10] ++ body ++ [13, 10])
    ++ [48, 13, 10, 13, 10]

/-- `Request::send_v11` (lines 198-219), as the byte stream it writes. -/
def Request.send_v11 (req : Request) : List Nat :=
  let body := req.body.getD []
  let headers := req.headers.insert (ascii "Transfer-Encoding") (ascii "chunked")
  req.method ++ [32] ++ req.path ++ ascii " HTTP/1.1" ++ [13, 10]
    ++ headerBlock headers ++ [13, 10]
    ++ chunkFramingOf body

/-! ### List helper lemmas -/

/-- `takeWhile` stops exactly at the first failing element. -/
theorem takeWhile_middle (p : Nat → Bool) (A : List Nat) (b : Nat) (C : List Nat)
    (hA : ∀ x ∈ A, p x = true) (hb : p b = false) :
    (A ++ b :: C).takeWhile p = A := by
  induction A with
  | nil => simp [List.takeWhile_cons, hb]
  | cons a as ih =>
    simp only [List.cons_append, List.takeWhile_cons, hA a (by simp)]
    simp [ih fun x hx => hA x (by simp [hx])]

/-- Dropping a line and its separator leaves the tail. -/
theorem drop_middle (A : List Nat) (b : Nat) (C : List Nat) :
    (A ++ b :: C).drop (A.length + 1) = C := by
  induction A with
  | nil => simp
  | cons a as ih => simp [ih]

/-! ### Lexicographic order lemmas -/

theorem lexLt_irrefl (l : List Nat) : lexLt l l = false := by
  induction l with
  | nil => rfl
  | cons a as ih => simp [lexLt, ih]

theorem lexLt_trans : ∀ (a b c : List Nat),
    lexLt a b = true → lexLt b c = true → lexLt a c = true
  | _, b, [], _, h2 => by simp [lexLt] at h2
  | [], [], _ :: _, h1, _ => by simp [lexLt] at h1
  | [], _ :: _, _ :: _, _, _ => by simp [lexLt]
  | _ :: _, [], _ :: _, h1, _ => by simp [lexLt] at h1
  | a0 :: as, b0 :: bs, c0 :: cs, h1, h2 => by
    simp only [lexLt] at h1 h2 ⊢
    rcases Nat.lt_trichotomy a0 b0 with g1 | g1 | g1
    · rcases Nat.lt_trichotomy b0 c0 with g2 | g2 | g2
      · rw [if_pos (by omega)]
      · rw [if_pos (by omega)]
      · rw [if_neg (by omega), if_pos g2] at h2
        exact absurd h2 (by simp)
    · subst g1
      rw [if_neg (by omega), if_neg (by omega)] at h1
      rcases Nat.lt_trichotomy a0 c0 with g2 | g2 | g2
      · rw [if_pos g2]
      · subst g2
        rw [if_neg (by omega), if_neg (by omega)] at h2 ⊢
        exact lexLt_trans as bs cs h1 h2
      · rw [if_neg (by omega), if_pos g2] at h2
        exact absurd h2 (by simp)
    · rw [if_neg (by omega), if_pos g1] at h1
      exact absurd h1 (by simp)

theorem lexLt_connex : ∀ (a b : List Nat),
    lexLt a b = false → a ≠ b → lexLt b a = true
  | [], [], _, h2 => absurd rfl h2
  | [], _ :: _, h1, _ => by simp [lexLt] at h1
  | _ :: _, [], _, _ => by simp [lexLt]
  | a0 :: as, b0 :: bs, h1, h2 => by
    simp only [lexLt] at h1 ⊢
    rcases Nat.lt_trichotomy a0 b0 with g | g | g
    · rw [if_pos g] at h1
      exact absurd h1 (by simp)
    · subst g
      rw [if_neg (by omega), if_neg (by omega)] at h1
      rw [if_neg (by omega), if_neg (by omega)]
      exact lexLt_connex as bs h1 fun he => h2 (by rw [he])
    · rw [if_pos g]

/-! ### Association-list map lemmas -/

theorem mapLookup_mapInsert_self (k v : List Nat) (m : List (List Nat × List Nat)) :
    mapLookup k (mapInsert k v m) = some v := by
  induction m with
  | nil => simp [mapInsert, mapLookup]
  | cons hd tl ih =>
    obtain ⟨k', v'⟩ := hd
    simp only [mapInsert]
    by_cases h1 : lexLt k k'
    · rw [if_pos h1]
      simp [mapLookup]
    · rw [if_neg h1]
      by_cases h2 : k = k'
      · rw [if_pos h2]
        simp [mapLookup]
      · rw [if_neg h2]
        simp [mapLookup, h2, ih]

theorem mapLookup_mapInsert_ne (q k v : List Nat) (m : List (List Nat × List Nat))
    (h : q ≠ k) : mapLookup q (mapInsert k v m) = mapLookup q m := by
  induction m with
  | nil => simp [mapInsert, mapLookup, h]
  | cons hd tl ih =>
    obtain ⟨k', v'⟩ := hd
    simp only [mapInsert]
    by_cases h1 : lexLt k k'
    · rw [if_pos h1]
      simp [mapLookup, h]
    · rw [if_neg h1]
      by_cases h2 : k = k'
      · rw [if_pos h2]
        subst h2
        simp [mapLookup, h]
      · rw [if_neg h2]
        simp [mapLookup, ih]

theorem mem_mapInsert (x : List Nat × List Nat) (k v : List Nat) :
    ∀ (m : List (List Nat × List Nat)), x ∈ mapInsert k v m → x = (k, v) ∨ x ∈ m
  | [], hx => by simpa [mapInsert] using hx
  | (k', v') :: tl, hx => by
    simp only [mapInsert] at hx
    by_cases h1 : lexLt k k'
    · rw [if_pos h1] at hx
      simp only [List.mem_cons] at hx
      rcases hx with h | h | h
      · exact Or.inl h
      · exact Or.inr (by simp [h])
      · exact Or.inr (by simp [h])
    · rw [if_neg h1] at hx
      by_cases h2 : k = k'
      · rw [if_pos h2] at hx
        simp only [List.mem_cons] at hx
        rcases hx with h | h
        · exact Or.inl h
        · exact Or.inr (by simp [h])
      · rw [if_neg h2] at hx
        simp only [List.mem_cons] at hx
        rcases hx with h | h
        · exact Or.inr (by simp [h])
        · rcases mem_mapInsert x k v tl h with h' | h'
          · exact Or.inl h'
          · exact Or.inr (by simp [h'])

/-- Insertion preserves the strictly-ascending key invariant. -/
theorem wf_mapInsert (k v : List Nat) (m : List (List Nat × List Nat))
    (h : m.Pairwise (fun a b => lexLt a.1 b.1 = true)) :
    (mapInsert k v m).Pairwise (fun a b => lexLt a.1 b.1 = true) := by
  induction m with
  | nil => simp [mapInsert]
  | cons hd tl ih =>
    obtain ⟨k', v'⟩ := hd
    rw [List.pairwise_cons] at h
    obtain ⟨hhd, htl⟩ := h
    simp only [mapInsert]
    by_cases h1 : lexLt k k'
    · rw [if_pos h1, List.pairwise_cons]
      constructor
      · intro x hx
        simp only [List.mem_cons] at hx
        rcases hx with hx | hx
        · simpa [hx] using h1
        · exact lexLt_trans k k' x.1 h1 (hhd x hx)
      · rw [List.pairwise_cons]
        exact ⟨hhd, htl⟩
    · rw [if_neg h1]
      by_cases h2 : k = k'
      · rw [if_pos h2, List.pairwise_cons]
        subst h2
        exact ⟨hhd, htl⟩
      · rw [if_neg h2, List.pairwise_cons]
        constructor
        · intro x hx
          rcases mem_mapInsert x k v tl hx with hx' | hx'
          · rw [hx']
            exact lexLt_connex k k' (by simpa using h1) h2
          · exact hhd x hx'
        · exact ih htl

theorem mapLookup_eq_none_of_forall (k : List Nat) (m : List (List Nat × List Nat))
    (h : ∀ x ∈ m, x.1 ≠ k) : mapLookup k m = none := by
  induction m with
  | nil => rfl
  | cons hd tl ih =>
    obtain ⟨k', v'⟩ := hd
    have hk : k ≠ k' := fun he => (h (k', v') (by simp)) he.symm
    simp [mapLookup, hk, ih fun x hx => h x (by simp [hx])]

/-- On a well-formed map, removing a key really deletes it. -/
theorem mapLookup_mapRemove_self (k : List Nat) (m : List (List Nat × List Nat))
    (h : m.Pairwise (fun a b => lexLt a.1 b.1 = true)) :
    mapLookup k (mapRemove k m) = none := by
  induction m with
  | nil => rfl
  | cons hd tl ih =>
    obtain ⟨k', v'⟩ := hd
    rw [List.pairwise_cons] at h
    obtain ⟨hhd, htl⟩ := h
    simp only [mapRemove]
    by_cases h1 : k = k'
    · rw [if_pos h1]
      apply mapLookup_eq_none_of_forall
      intro x hx he
      have hlt := hhd x hx
      rw [he, ← h1] at hlt
      have : lexLt k k = false := lexLt_irrefl k
      rw [this] at hlt
      exact absurd hlt (by simp)
    · rw [if_neg h1]
      simp [mapLookup, h1, ih htl]

/-! ### Header-scan invariant -/

theorem toLower_clKey : toLower clKey = clKey := by decide

theorem toLower_teKey : toLower teKey = teKey := by decide

theorem teKey_ne_clKey : teKey ≠ clKey := by decide

/-- Facts the scan loop maintains relating its flags to the header map:
the chunked flag tracks presence of a `transfer-encoding` key, whose
stored value is always (case-insensitively) `chunked`; `content_length`
tracks the value of the last stored `content-length` header and is `0`
when none was stored. -/
def ScanInv (st : ScanState) : Prop :=
  st.headers.contains teKey = st.is_chunked
  ∧ (∀ v, st.headers.get teKey = some v → toLower v = chunkedVal)
  ∧ (st.headers.get clKey = none → st.content_length = 0)
  ∧ (∀ v, st.headers.get clKey = some v → parseUsize v = some st.content_length)

theorem Inv_init : ScanInv initState := by
  refine ⟨rfl, ?_, ?_, ?_⟩
  · intro v hv
    simp [initState, Headers.get, mapLookup] at hv
  · intro _
    rfl
  · intro v hv
    simp [initState, Headers.get, mapLookup] at hv

theorem processLine_stop_inv (isHeader : Bool) (st : ScanState) (p : Nat) (line : List Nat)
    (st' : ScanState) (h : processLine isHeader st p line = .stop st')
    (hinv : ScanInv st) : ScanInv st' := by
  cases isHeader with
  | false =>
    simp only [processLine, Bool.false_eq_true, if_false] at h
    by_cases hu : utf8Valid line
    · rw [if_pos hu] at h
      cases h1 : (splitn 3 line)[1]? with
      | none => simp only [h1] at h; exact absurd h (by simp)
      | some p1 =>
        simp only [h1] at h
        cases h2 : parseU16 p1 with
        | none => simp only [h2] at h; exact absurd h (by simp)
        | some code =>
          simp only [h2] at h
          cases h3 : (splitn 3 line)[2]? with
          | none => simp only [h3] at h; exact absurd h (by simp)
          | some msg => simp only [h3] at h; exact absurd h (by simp)
    · rw [if_neg hu] at h
      exact absurd h (by simp)
  | true =>
    simp only [processLine, if_true] at h
    by_cases he : line.isEmpty
    · rw [if_pos he] at h
      injection h with h'
      subst h'
      exact hinv
    · rw [if_neg he] at h
      by_cases hu : utf8Valid line
      · rw [if_pos hu] at h
        cases h1 : splitOnceColonSp line with
        | none => simp only [h1] at h; exact absurd h (by simp)
        | some kv =>
          obtain ⟨key, val⟩ := kv
          simp only [h1] at h
          by_cases hcl : toLower key = clKey
          · rw [if_pos hcl] at h
            cases h2 : parseUsize val with
            | none => simp only [h2] at h; exact absurd h (by simp)
            | some n => simp only [h2] at h; exact absurd h (by simp)
          · rw [if_neg hcl] at h
            by_cases hte : toLower key = teKey
            · rw [if_pos hte] at h
              by_cases hv : toLower val = chunkedVal
              · rw [if_pos hv] at h; exact absurd h (by simp)
              · rw [if_neg hv] at h; exact absurd h (by simp)
            · rw [if_neg hte] at h
              exact absurd h (by simp)
      · rw [if_neg hu] at h
        exact absurd h (by simp)

theorem processLine_next_inv (isHeader : Bool) (st : ScanState) (p : Nat) (line : List Nat)
    (b : Bool) (st' : ScanState) (h : processLine isHeader st p line = .next b st')
    (hinv : ScanInv st) : ScanInv st' := by
  obtain ⟨i1, i2, i3, i4⟩ := hinv
  cases isHeader with
  | false =>
    simp only [processLine, Bool.false_eq_true, if_false] at h
    by_cases hu : utf8Valid line
    · rw [if_pos hu] at h
      cases h1 : (splitn 3 line)[1]? with
      | none => simp only [h1] at h; exact absurd h (by simp)
      | some p1 =>
        simp only [h1] at h
        cases h2 : parseU16 p1 with
        | none => simp only [h2] at h; exact absurd h (by simp)
        | some code =>
          simp only [h2] at h
          cases h3 : (splitn 3 line)[2]? with
          | none => simp only [h3] at h; exact absurd h (by simp)
          | some msg =>
            simp only [h3] at h
            rw [LineStep.next.injEq] at h
            obtain ⟨_, hst⟩ := h
            subst hst
            exact ⟨i1, i2, i3, i4⟩
    · rw [if_neg hu] at h
      exact absurd h (by simp)
  | true =>
    simp only [processLine, if_true] at h
    by_cases he : line.isEmpty
    · rw [if_pos he] at h
      exact absurd h (by simp)
    · rw [if_neg he] at h
      by_cases hu : utf8Valid line
      · rw [if_pos hu] at h
        cases h1 : splitOnceColonSp line with
        | none => simp only [h1] at h; exact absurd h (by simp)
        | some kv =>
          obtain ⟨key, val⟩ := kv
          simp only [h1] at h
          by_cases hcl : toLower key = clKey
          · rw [if_pos hcl] at h
            cases h2 : parseUsize val with
            | none => simp only [h2] at h; exact absurd h (by simp)
            | some n =>
              simp only [h2] at h
              rw [LineStep.next.injEq] at h
              obtain ⟨_, hst⟩ := h
              subst hst
              refine ⟨?_, ?_, ?_, ?_⟩
              · show (Headers.insert st.headers key val).contains teKey = st.is_chunked
                simp only [Headers.contains, Headers.get, Headers.insert, hcl, toLower_teKey]
                rw [mapLookup_mapInsert_ne _ _ _ _ teKey_ne_clKey]
                exact i1
              · intro v hv
                simp only [Headers.get, Headers.insert, hcl, toLower_teKey] at hv
                rw [mapLookup_mapInsert_ne _ _ _ _ teKey_ne_clKey] at hv
                exact i2 v hv
              · intro hv
                simp only [Headers.get, Headers.insert, hcl, toLower_clKey] at hv
                rw [mapLookup_mapInsert_self] at hv
                exact absurd hv (by simp)
              · intro v hv
                simp only [Headers.get, Headers.insert, hcl, toLower_clKey] at hv
                rw [mapLookup_mapInsert_self] at hv
                injection hv with hv'
                subst hv'
                exact h2
          · rw [if_neg hcl] at h
            by_cases hte : toLower key = teKey
            · rw [if_pos hte] at h
              by_cases hv : toLower val = chunkedVal
              · rw [if_pos hv] at h
                rw [LineStep.next.injEq] at h
                obtain ⟨_, hst⟩ := h
                subst hst
                refine ⟨?_, ?_, ?_, ?_⟩
                · show (Headers.insert st.headers key val).contains teKey = true
                  simp only [Headers.contains, Headers.get, Headers.insert, hte, toLower_teKey]
                  rw [mapLookup_mapInsert_self]
                  rfl
                · intro v hv'
                  simp only [Headers.get, Headers.insert, hte, toLower_teKey] at hv'
                  rw [mapLookup_mapInsert_self] at hv'
                  injection hv' with hv''
                  subst hv''
                  exact hv
                · intro hv'
                  simp only [Headers.get, Headers.insert, hte, toLower_clKey] at hv'
                  rw [mapLookup_mapInsert_ne _ _ _ _ teKey_ne_clKey.symm] at hv'
                  exact i3 hv'
                · intro v hv'
                  simp only [Headers.get, Headers.insert, hte, toLower_clKey] at hv'
                  rw [mapLookup_mapInsert_ne _ _ _ _ teKey_ne_clKey.symm] at hv'
                  exact i4 v hv'
              · rw [if_neg hv] at h
                exact absurd h (by simp)
            · rw [if_neg hte] at h
              rw [LineStep.next.injEq] at h
              obtain ⟨_, hst⟩ := h
              subst hst
              refine ⟨?_, ?_, ?_, ?_⟩
              · show (Headers.insert st.headers key val).contains teKey = st.is_chunked
                simp only [Headers.contains, Headers.get, Headers.insert, toLower_teKey]
                rw [mapLookup_mapInsert_ne _ _ _ _ (fun he' => hte he'.symm)]
                exact i1
              · intro v hv'
                simp only [Headers.get, Headers.insert, toLower_teKey] at hv'
                rw [mapLookup_mapInsert_ne _ _ _ _ (fun he' => hte he'.symm)] at hv'
                exact i2 v hv'
              · intro hv'
                simp only [Headers.get, Headers.insert, toLower_clKey] at hv'
                rw [mapLookup_mapInsert_ne _ _ _ _ (fun he' => hcl he'.symm)] at hv'
                exact i3 hv'
              · intro v hv'
                simp only [Headers.get, Headers.insert, toLower_clKey] at hv'
                rw [mapLookup_mapInsert_ne _ _ _ _ (fun he' => hcl he'.symm)] at hv'
                exact i4 v hv'
      · rw [if_neg hu] at h
        exact absurd h (by simp)

/-- Every successful scan preserves `ScanInv`. -/
theorem scan_inv : ∀ (fuel : Nat) (isHeader : Bool) (st : ScanState) (buf : List Nat)
    (st' : ScanState), scanLinesF fuel isHeader st buf = .ok st' → ScanInv st → ScanInv st'
  | 0, _, _, _, _, h, _ => by simp [scanLinesF] at h
  | fuel + 1, isHeader, st, buf, st', h, hinv => by
    simp only [scanLinesF] at h
    cases hp : processLine isHeader st (st.pos + (buf.takeWhile (fun c => c != 10)).length + 1)
        (stripCr (buf.takeWhile (fun c => c != 10))) with
    | err e => simp only [hp] at h; exact absurd h (by simp)
    | panic e => simp only [hp] at h; exact absurd h (by simp)
    | stop st2 =>
      simp only [hp] at h
      injection h with h'
      subst h'
      exact processLine_stop_inv _ _ _ _ _ hp hinv
    | next b st2 =>
      simp only [hp] at h
      by_cases hlen : (buf.takeWhile (fun c => c != 10)).length = buf.length
      · rw [if_pos hlen] at h
        injection h with h'
        subst h'
        exact processLine_next_inv _ _ _ _ _ _ hp hinv
      · rw [if_neg hlen] at h
        exact scan_inv fuel _ _ _ _ h (processLine_next_inv _ _ _ _ _ _ hp hinv)

theorem scanTop_inv (bytes : List Nat) (st : ScanState) (h : scanTop bytes = .ok st) :
    ScanInv st :=
  scan_inv _ _ _ _ _ h Inv_init

/-! ### Unfolding lemmas for the line scan -/

/-- One scan step on a buffer beginning with a newline-terminated line. -/
theorem scanLinesF_append_line (fuel : Nat) (isHeader : Bool) (st : ScanState)
    (A C : List Nat) (hA : ∀ x ∈ A, (x != 10) = true) :
    scanLinesF (fuel + 1) isHeader st (A ++ 10 :: C)
      = match processLine isHeader st (st.pos + A.length + 1) (stripCr A) with
        | .err e => .err e
        | .panic e => .panic e
        | .stop st' => .ok st'
        | .next isHeader' st' => scanLinesF fuel isHeader' st' C := by
  simp only [scanLinesF]
  rw [takeWhile_middle _ _ _ _ hA (by decide)]
  rw [drop_middle]
  have hlen : ¬ (A.length = (A ++ 10 :: C).length) := by
    simp only [List.length_append, List.length_cons]
    omega
  cases processLine isHeader st (st.pos + A.length + 1) (stripCr A) with
  | err e => rfl
  | panic e => rfl
  | stop st' => rfl
  | next b st' => exact if_neg hlen

def statusLineOK : List Nat := ascii "HTTP/1.1 200 OK\r"
def teLine : List Nat := ascii "Transfer-Encoding: chunked\r"

/-- The chunked header block used by the round-trip claims:
`HTTP/1.1 200 OK\r\nTransfer-Encoding: chunked\r\n\r\n`. -/
def hdrChunked : List Nat := statusLineOK ++ 10 :: (teLine ++ 10 :: (13 :: [10]))

def stAfter1 : ScanState := ⟨200, ascii "OK", ⟨[]⟩, 0, false, 17⟩
def stAfter2 : ScanState := ⟨200, ascii "OK", ⟨[(teKey, chunkedVal)]⟩, 0, true, 45⟩

/-- Scan state reached after scanning `hdrChunked`. -/
def stChunked : ScanState := ⟨200, ascii "OK", ⟨[(teKey, chunkedVal)]⟩, 0, true, 47⟩

/-- Scanning `hdrChunked` followed by any body bytes stops at the blank
line with the chunked flag set and body offset 47. -/
theorem scan_hdrChunked (rest : List Nat) (fuel : Nat) (hf : 3 ≤ fuel) :
    scanLinesF fuel false initState (hdrChunked ++ rest) = .ok stChunked := by
  obtain ⟨f3, rfl⟩ : ∃ k, fuel = k + 3 := ⟨fuel - 3, by omega⟩
  have hbuf : hdrChunked ++ rest
      = statusLineOK ++ 10 :: (teLine ++ 10 :: (13 :: 10 :: rest)) := by
    simp [hdrChunked]
  rw [hbuf]
  rw [show f3 + 3 = (f3 + 2) + 1 by omega]
  rw [scanLinesF_append_line _ _ _ _ _ (by decide)]
  have hp1 : processLine false initState (initState.pos + statusLineOK.length + 1)
      (stripCr statusLineOK) = .next true stAfter1 := by decide
  simp only [hp1]
  rw [show f3 + 2 = (f3 + 1) + 1 by omega]
  rw [scanLinesF_append_line _ _ _ _ _ (by decide)]
  have hp2 : processLine true stAfter1 (stAfter1.pos + teLine.length + 1)
      (stripCr teLine) = .next true stAfter2 := by decide
  simp only [hp2]
  show scanLinesF (f3 + 1) true stAfter2 ([13] ++ 10 :: rest) = .ok stChunked
  rw [scanLinesF_append_line _ _ _ _ _ (by decide)]
  have hp3 : processLine true stAfter2 (stAfter2.pos + [13].length + 1)
      (stripCr [13]) = .stop stChunked := by decide
  simp only [hp3]

/-! ### Chunk-decoding lemmas -/

/-- Decoding a slice that starts with the terminal `0\r\n` chunk stops
immediately, returning the accumulated body. -/
theorem decode_terminal (fuel : Nat) (body tail : List Nat) :
    decodeChunksF (fuel + 1) body (48 :: 13 :: 10 :: tail) = .ok body := by
  have ht : (48 :: 13 :: 10 :: tail).takeWhile (fun c => c != 13) = [48] := by
    simp [List.takeWhile_cons]
  simp only [decodeChunksF, ht]
  have h1 : [48].length + 2 ≤ (48 :: 13 :: 10 :: tail).length := by
    simp
  rw [if_pos h1]
  have h2 : ((48 :: 13 :: 10 :: tail).drop [48].length).take 2 = [13, 10] := by
    simp
  rw [if_pos h2]
  rw [if_pos (show utf8Valid [48] = true by decide)]
  have h4 : parseHexUsize [48] = some 0 := by decide
  simp only [h4]
  simp

/-- Decoding a single well-sized chunk followed by the terminal chunk
recovers exactly the chunk bytes. -/
theorem decode_single (fuel : Nat) (B hexC : List Nat)
    (h13 : ∀ x ∈ hexC, (x != 13) = true)
    (hu : utf8Valid hexC = true)
    (hp : parseHexUsize hexC = some B.length)
    (hne : B.length ≠ 0)
    (hf : 2 ≤ fuel) :
    decodeChunksF fuel []
        (hexC ++ 13 :: 10 :: (B ++ 13 :: 10 :: 48 :: 13 :: 10 :: 13 :: 10 :: []))
      = .ok B := by
  obtain ⟨f2, rfl⟩ : ∃ k, fuel = k + 2 := ⟨fuel - 2, by omega⟩
  rw [show f2 + 2 = (f2 + 1) + 1 by omega]
  simp only [decodeChunksF]
  rw [takeWhile_middle _ _ _ _ h13 (by decide)]
  have hlen1 : hexC.length + 2
      ≤ (hexC ++ 13 :: 10 :: (B ++ 13 :: 10 :: 48 :: 13 :: 10 :: 13 :: 10 :: [])).length := by
    simp only [List.length_append, List.length_cons]
    omega
  rw [if_pos hlen1]
  have hd1 : ((hexC ++ 13 :: 10 :: (B ++ 13 :: 10 :: 48 :: 13 :: 10 :: 13 :: 10 :: [])).drop
      hexC.length).take 2 = [13, 10] := by
    rw [List.drop_left' rfl]
    simp
  rw [if_pos hd1]
  have hd2 : (hexC ++ 13 :: 10 :: (B ++ 13 :: 10 :: 48 :: 13 :: 10 :: 13 :: 10 :: [])).drop
      (hexC.length + 2) = B ++ 13 :: 10 :: 48 :: 13 :: 10 :: 13 :: 10 :: [] := by
    rw [show hexC ++ 13 :: 10 :: (B ++ 13 :: 10 :: 48 :: 13 :: 10 :: 13 :: 10 :: [])
        = (hexC ++ [13, 10]) ++ (B ++ 13 :: 10 :: 48 :: 13 :: 10 :: 13 :: 10 :: []) by simp]
    rw [List.drop_left' (by simp)]
  rw [hd2]
  rw [if_pos hu]
  simp only [hp]
  rw [if_neg hne]
  have hlen2 : B.length + 2 ≤ (B ++ 13 :: 10 :: 48 :: 13 :: 10 :: 13 :: 10 :: []).length := by
    simp only [List.length_append, List.length_cons]
    omega
  rw [if_pos hlen2]
  have hd3 : ((B ++ 13 :: 10 :: 48 :: 13 :: 10 :: 13 :: 10 :: []).drop B.length).take 2
      = [13, 10] := by
    rw [List.drop_left]
    simp
  rw [if_pos hd3]
  have hd4 : (B ++ 13 :: 10 :: 48 :: 13 :: 10 :: 13 :: 10 :: []).take B.length = B :=
    List.take_left B _
  rw [hd4]
  have hd5 : (B ++ 13 :: 10 :: 48 :: 13 :: 10 :: 13 :: 10 :: []).drop (B.length + 2)
      = 48 :: 13 :: 10 :: 13 :: 10 :: [] := by
    rw [show B ++ 13 :: 10 :: 48 :: 13 :: 10 :: 13 :: 10 :: []
        = (B ++ [13, 10]) ++ (48 :: 13 :: 10 :: 13 :: 10 :: []) by simp]
    rw [List.drop_left' (by simp)]
  rw [hd5]
  rw [show ([] : List Nat) ++ B = B from List.nil_append B]
  exact decode_terminal f2 B (13 :: 10 :: [])

/-! ### Parse-level helper lemmas -/

/-- A successful parse returns exactly the scanned status and headers. -/
theorem parse_ok_headers (bs : List Nat) (r : Response) (hok : Response.parse bs = .ok r) :
    ∃ st, scanTop bs = .ok st ∧ r.status_code = st.status_code
      ∧ r.status_message = st.status_message ∧ r.headers = st.headers := by
  cases hscan : scanTop bs with
  | err e => simp only [Response.parse, hscan] at hok; exact PResult.noConfusion hok
  | panic e => simp only [Response.parse, hscan] at hok; exact PResult.noConfusion hok
  | ok st =>
    refine ⟨st, rfl, ?_⟩
    simp only [Response.parse, hscan] at hok
    by_cases hch : st.is_chunked = true
    · rw [if_pos hch] at hok
      by_cases hpos : st.pos ≤ bs.length
      · rw [if_pos hpos] at hok
        cases hd : decodeChunksF ((bs.drop st.pos).length + 1) [] (bs.drop st.pos) with
        | ok body =>
          simp only [hd] at hok
          injection hok with h'
          rw [← h']
          exact ⟨rfl, rfl, rfl⟩
        | err e => simp only [hd] at hok; exact PResult.noConfusion hok
        | panic e => simp only [hd] at hok; exact PResult.noConfusion hok
      · rw [if_neg hpos] at hok; exact PResult.noConfusion hok
    · rw [if_neg hch] at hok
      by_cases hle : st.pos + (if st.content_length = 0 then bs.length - st.pos
          else st.content_length) ≤ bs.length
      · rw [if_pos hle] at hok
        injection hok with h'
        rw [← h']
        exact ⟨rfl, rfl, rfl⟩
      · rw [if_neg hle] at hok; exact PResult.noConfusion hok

/-- The buffer of the chunked round-trip claim: `hdrChunked` followed by
the single-chunk encoding `<hexlen>\r\n<B>\r\n0\r\n\r\n` of `B`. -/
def chunkedBuf (B : List Nat) : List Nat :=
  hdrChunked ++ natToHex B.length ++ [13, 10] ++ B ++ [13, 10] ++ [48, 13, 10, 13, 10]

/-- Parsing `chunkedBuf B` (for non-empty `B`, given the hex side
conditions in concrete form) recovers body `B` verbatim. -/
theorem parse_chunkedBuf (B : List Nat)
    (h13 : ∀ x ∈ natToHex B.length, (x != 13) = true)
    (hu : utf8Valid (natToHex B.length) = true)
    (hp : parseHexUsize (natToHex B.length) = some B.length)
    (hne : B.length ≠ 0) :
    Response.parse (chunkedBuf B) = .ok ⟨200, ascii "OK", ⟨[(teKey, chunkedVal)]⟩, B⟩ := by
  have hlen47 : hdrChunked.length = 47 := by decide
  have hshape : chunkedBuf B
      = hdrChunked ++ (natToHex B.length ++ 13 :: 10 ::
          (B ++ 13 :: 10 :: 48 :: 13 :: 10 :: 13 :: 10 :: [])) := by
    simp [chunkedBuf]
  have hscan : scanTop (chunkedBuf B) = .ok stChunked := by
    rw [scanTop, hshape]
    apply scan_hdrChunked
    simp only [List.length_append, hlen47]
    omega
  simp only [Response.parse, hscan]
  rw [if_pos (show stChunked.is_chunked = true from rfl)]
  have hposle : stChunked.pos ≤ (chunkedBuf B).length := by
    rw [hshape]
    simp only [List.length_append, hlen47]
    show 47 ≤ _
    omega
  rw [if_pos hposle]
  have hdrop : (chunkedBuf B).drop stChunked.pos
      = natToHex B.length ++ 13 :: 10 ::
          (B ++ 13 :: 10 :: 48 :: 13 :: 10 :: 13 :: 10 :: []) := by
    rw [hshape, show stChunked.pos = 47 from rfl, ← hlen47, List.drop_left]
  rw [hdrop]
  have hf' : 2 ≤ (natToHex B.length ++ 13 :: 10 ::
      (B ++ 13 :: 10 :: 48 :: 13 :: 10 :: 13 :: 10 :: [])).length + 1 := by
    simp only [List.length_append, List.length_cons]
    omega
  simp only [decode_single _ B (natToHex B.length) h13 hu hp hne hf']
  rfl

/-- Decoding the framing `send_v11` emits for a non-empty body `B`
recovers `B`. -/
theorem decode_chunkFraming (B : List Nat)
    (h13 : ∀ x ∈ natToHex B.length, (x != 13) = true)
    (hu : utf8Valid (natToHex B.length) = true)
    (hp : parseHexUsize (natToHex B.length) = some B.length)
    (hne : B.length ≠ 0) :
    decodeChunksF ((chunkFramingOf B).length + 1) [] (chunkFramingOf B) = .ok B := by
  have hBne : B.isEmpty = false := by
    cases B with
    | nil => simp at hne
    | cons a l => rfl
  have hshape : chunkFramingOf B
      = natToHex B.length ++ 13 :: 10 ::
          (B ++ 13 :: 10 :: 48 :: 13 :: 10 :: 13 :: 10 :: []) := by
    simp [chunkFramingOf, hBne]
  rw [hshape]
  apply decode_single _ _ _ h13 hu hp hne
  simp only [List.length_append, List.length_cons]
  omega

/-! ### Claim theorems -/

/-- Claim C1 (code-bug evidence): for chunked responses whose chunk
framing is malformed — a chunk-size line not followed by `\r\n`, a
declared size longer than the remaining buffer, or chunk data not
followed by `\r\n` — `Response::parse` panics (out-of-range slicing or a
failed `assert_eq!`) instead of returning a typed parse error to the
caller. -/
theorem parse_malformed_chunk_framing_panics :
    Response.parse (ascii "HTTP/1.1 200 OK\r\nTransfer-Encoding: chunked\r\n\r\n5")
      = .panic "slice index out of range"
    ∧ Response.parse (ascii "HTTP/1.1 200 OK\r\nTransfer-Encoding: chunked\r\n\r\nff\r\nab")
      = .panic "slice index out of range"
    ∧ Response.parse (ascii "HTTP/1.1 200 OK\r\nTransfer-Encoding: chunked\r\n\r\n3\r\nabcde")
      = .panic "assertion failed" :=
  ⟨by decide, by decide, by decide⟩

/-- Claim C2 (code-bug evidence): a non-chunked response whose declared
Content-Length exceeds the bytes remaining after the header block, and a
buffer whose header block is not terminated by a blank line (body offset
past the end), both make `Response::parse` panic on an out-of-range
slice instead of returning a typed parse error. -/
theorem parse_truncated_buffer_panics :
    Response.parse (ascii "HTTP/1.1 200 OK\r\nContent-Length: 10\r\n\r\nhi")
      = .panic "range end index out of range"
    ∧ Response.parse (ascii "HTTP/1.1 200 OK")
      = .panic "range end index out of range" :=
  ⟨by decide, by decide⟩

/-- Claim C3 (code-bug evidence): a status line with fewer than three
whitespace-delimited tokens (including the empty buffer) makes
`Response::parse` panic on an out-of-bounds `parts[1]`/`parts[2]` index
instead of returning a typed parse error. -/
theorem parse_short_status_line_panics :
    Response.parse (ascii "") = .panic "index out of bounds"
    ∧ Response.parse (ascii "HTTP/1.1") = .panic "index out of bounds"
    ∧ Response.parse (ascii "HTTP/1.1 200") = .panic "index out of bounds" :=
  ⟨by decide, by decide, by decide⟩

/-- Claim C4: when a successfully parsed response carries both a
`Transfer-Encoding: chunked` and a `Content-Length` header, the chunked
flag is set and the body is exactly the chunked decoding of the bytes
after the header block — an expression independent of the parsed
Content-Length value, so the two length mechanisms are never both
applied. -/
theorem parse_chunked_takes_precedence (bs : List Nat) (st : ScanState) (r : Response)
    (hscan : scanTop bs = .ok st)
    (hte : st.headers.contains teKey = true)
    (_hcl : st.headers.contains clKey = true)
    (hok : Response.parse bs = .ok r) :
    st.is_chunked = true
    ∧ decodeChunksF ((bs.drop st.pos).length + 1) [] (bs.drop st.pos) = .ok r.body := by
  obtain ⟨i1, _, _, _⟩ := scanTop_inv bs st hscan
  have hch : st.is_chunked = true := by rw [← i1, hte]
  refine ⟨hch, ?_⟩
  simp only [Response.parse, hscan] at hok
  rw [if_pos hch] at hok
  by_cases hpos : st.pos ≤ bs.length
  · rw [if_pos hpos] at hok
    cases hd : decodeChunksF ((bs.drop st.pos).length + 1) [] (bs.drop st.pos) with
    | ok body =>
      simp only [hd] at hok
      injection hok with h'
      subst h'
      rfl
    | err e => simp only [hd] at hok; exact PResult.noConfusion hok
    | panic e => simp only [hd] at hok; exact PResult.noConfusion hok
  · rw [if_neg hpos] at hok
    exact PResult.noConfusion hok

def bsC4 : List Nat :=
  ascii "HTTP/1.1 200 OK\r\nContent-Length: 999\r\nTransfer-Encoding: chunked\r\n\r\n5\r\nhello\r\n0\r\n\r\n"

def stC4 : ScanState :=
  ⟨200, ascii "OK", ⟨[(clKey, ascii "999"), (teKey, chunkedVal)]⟩, 999, true, 68⟩

def rC4 : Response :=
  ⟨200, ascii "OK", ⟨[(clKey, ascii "999"), (teKey, chunkedVal)]⟩, ascii "hello"⟩

/-- Witness for C4 at a concrete buffer carrying both headers. -/
theorem parse_chunked_takes_precedence_witness :
    stC4.is_chunked = true
    ∧ decodeChunksF ((bsC4.drop stC4.pos).length + 1) [] (bsC4.drop stC4.pos)
        = .ok rC4.body :=
  parse_chunked_takes_precedence bsC4 stC4 rC4 (by decide) (by decide) (by decide) (by decide)

/-- Claim C5: for bodies `B` of length 0, 1, 255, 256 or 65536, parsing
the buffer made of a valid status line, a `Transfer-Encoding: chunked`
header block and the single-chunk encoding `<hexlen>\r\n<B>\r\n0\r\n\r\n`
yields body `B` verbatim; and the chunk framing emitted by
`Request::send_v11` for `B` decodes back to `B`. -/
theorem chunked_roundtrip (B : List Nat)
    (h : B.length = 0 ∨ B.length = 1 ∨ B.length = 255 ∨ B.length = 256 ∨ B.length = 65536) :
    Response.parse (chunkedBuf B) = .ok ⟨200, ascii "OK", ⟨[(teKey, chunkedVal)]⟩, B⟩
    ∧ decodeChunksF ((chunkFramingOf B).length + 1) [] (chunkFramingOf B) = .ok B := by
  rcases h with h0 | hn | hn | hn | hn
  · have hB : B = [] := List.length_eq_zero.mp h0
    subst hB
    exact ⟨by decide, by decide⟩
  all_goals {
    refine ⟨parse_chunkedBuf B ?_ ?_ ?_ ?_, decode_chunkFraming B ?_ ?_ ?_ ?_⟩ <;>
      rw [hn] <;> decide
  }

/-- Witness for C5 at the one-byte body `[97]`. -/
theorem chunked_roundtrip_witness :
    Response.parse (chunkedBuf [97]) = .ok ⟨200, ascii "OK", ⟨[(teKey, chunkedVal)]⟩, [97]⟩
    ∧ decodeChunksF ((chunkFramingOf [97]).length + 1) [] (chunkFramingOf [97]) = .ok [97] :=
  chunked_roundtrip [97] (Or.inr (Or.inl rfl))

def reqC6 : Request :=
  ⟨ascii "GET", ascii "/x?y=1", Headers.insert ⟨[]⟩ (ascii "Host") (ascii "example.com"), none⟩

/-- Claim C6 counterexample: the serialization of the scenario request
is not the claimed byte string with `host` before `content-length`. -/
theorem send_v10_scenario_order_counterexample :
    Request.send_v10 reqC6
      ≠ ascii "GET /x?y=1 HTTP/1.0\r\nhost: example.com\r\ncontent-length: 0\r\n\r\n" := by
  decide

/-- Claim C6 (amended): the scenario request serializes with the headers
in the map's ascending key order — `content-length` (always emitted,
value 0 for an absent body) before `host`. -/
theorem send_v10_scenario_ascending_order :
    Request.send_v10 reqC6
      = ascii "GET /x?y=1 HTTP/1.0\r\ncontent-length: 0\r\nhost: example.com\r\n\r\n" := by
  decide

/-- Claim C7: a `Transfer-Encoding` value other than (case-insensitive)
`chunked` is a hard parse error — shown at the spec's `gzip` example —
and no successful parse ever stores a transfer-encoding header whose
value is not `chunked`, so such input never yields a `Response`. -/
theorem parse_rejects_unknown_transfer_encoding :
    Response.parse (ascii "HTTP/1.1 200 OK\r\nTransfer-Encoding: gzip\r\n\r\n")
      = .err "Unknown transfer-encoding value"
    ∧ ∀ (bs : List Nat) (r : Response) (v : List Nat),
        Response.parse bs = .ok r → r.headers.get teKey = some v → toLower v = chunkedVal := by
  constructor
  · decide
  · intro bs r v hok hv
    obtain ⟨st, hscan, _, _, hh⟩ := parse_ok_headers bs r hok
    obtain ⟨_, i2, _, _⟩ := scanTop_inv bs st hscan
    rw [hh] at hv
    exact i2 v hv

def bsC7 : List Nat :=
  ascii "HTTP/1.1 200 OK\r\nTransfer-Encoding: chunked\r\n\r\n5\r\nhello\r\n0\r\n\r\n"

/-- Witness for C7's universal part at a successful chunked parse. -/
theorem parse_rejects_unknown_transfer_encoding_witness :
    toLower chunkedVal = chunkedVal :=
  parse_rejects_unknown_transfer_encoding.2 bsC7
    ⟨200, ascii "OK", ⟨[(teKey, chunkedVal)]⟩, ascii "hello"⟩ chunkedVal
    (by decide) (by decide)

/-- Claim C8: on a well-formed Header Map, for names that agree after
lower-casing, `set` then `get` returns the value, `contains` sees it,
`remove` under a case-variant deletes it, and a later `set` under a
case-variant overwrites it. -/
theorem headers_case_insensitive (m : Headers) (n1 n2 v v' : List Nat)
    (hw : m.Wf) (h : toLower n1 = toLower n2) :
    (m.insert n1 v).get n2 = some v
    ∧ (m.insert n1 v).contains n2 = true
    ∧ ((m.insert n1 v).remove n2).get n1 = none
    ∧ ((m.insert n1 v).insert n2 v').get n1 = some v' := by
  have hg : (m.insert n1 v).get n2 = some v := by
    simp only [Headers.get, Headers.insert]
    rw [← h]
    exact mapLookup_mapInsert_self _ _ _
  refine ⟨hg, ?_, ?_, ?_⟩
  · simp only [Headers.contains, hg, Option.isSome_some]
  · simp only [Headers.get, Headers.remove, Headers.insert]
    rw [h]
    exact mapLookup_mapRemove_self _ _ (wf_mapInsert _ _ _ hw)
  · simp only [Headers.get, Headers.insert]
    rw [h]
    exact mapLookup_mapInsert_self _ _ _

/-- Witness for C8 with `Host` / `hOsT` on the empty map. -/
theorem headers_case_insensitive_witness :
    (Headers.insert ⟨[]⟩ (ascii "Host") (ascii "a")).get (ascii "hOsT") = some (ascii "a")
    ∧ (Headers.insert ⟨[]⟩ (ascii "Host") (ascii "a")).contains (ascii "hOsT") = true
    ∧ ((Headers.insert ⟨[]⟩ (ascii "Host") (ascii "a")).remove (ascii "hOsT")).get
        (ascii "Host") = none
    ∧ ((Headers.insert ⟨[]⟩ (ascii "Host") (ascii "a")).insert (ascii "hOsT")
        (ascii "b")).get (ascii "Host") = some (ascii "b") :=
  headers_case_insensitive ⟨[]⟩ (ascii "Host") (ascii "hOsT") (ascii "a") (ascii "b")
    List.Pairwise.nil (by decide)

/-- Claim C9: a response whose scanned header block contains neither a
`content-length` nor a `transfer-encoding` key (and whose header block
was properly terminated, so the body offset is in range) parses
successfully with the whole remaining buffer as its body. -/
theorem parse_no_length_headers_takes_rest (bs : List Nat) (st : ScanState)
    (hscan : scanTop bs = .ok st)
    (hcl : st.headers.contains clKey = false)
    (hte : st.headers.contains teKey = false)
    (hpos : st.pos ≤ bs.length) :
    Response.parse bs
      = .ok ⟨st.status_code, st.status_message, st.headers, bs.drop st.pos⟩ := by
  obtain ⟨i1, _, i3, _⟩ := scanTop_inv bs st hscan
  have hch : ¬ st.is_chunked = true := by
    rw [← i1, hte]
    simp
  have hgcl : st.headers.get clKey = none := by
    cases hgc : st.headers.get clKey with
    | none => rfl
    | some w =>
      rw [Headers.contains, hgc] at hcl
      simp at hcl
  have hcl0 : st.content_length = 0 := i3 hgcl
  simp only [Response.parse, hscan]
  rw [if_neg hch, hcl0]
  rw [if_pos rfl]
  rw [if_pos (show st.pos + (bs.length - st.pos) ≤ bs.length by omega)]
  have htake : (bs.drop st.pos).take (bs.length - st.pos) = bs.drop st.pos := by
    apply List.take_of_length_le
    simp
  rw [htake]

def bsC9 : List Nat := ascii "HTTP/1.1 200 OK\r\nServer: x\r\n\r\nhello"

def stC9 : ScanState := ⟨200, ascii "OK", ⟨[(ascii "server", ascii "x")]⟩, 0, false, 30⟩

/-- Witness for C9 at a concrete buffer without length headers. -/
theorem parse_no_length_headers_takes_rest_witness :
    Response.parse bsC9
      = .ok ⟨200, ascii "OK", ⟨[(ascii "server", ascii "x")]⟩, ascii "hello"⟩ := by
  have h := parse_no_length_headers_takes_rest bsC9 stC9
    (by decide) (by decide) (by decide) (by decide)
  exact h.trans (by decide)

/-- Claim C10: an explicit `Content-Length: 0` header is treated exactly
like an absent Content-Length on the non-chunked path: with `N > 0`
bytes remaining after the header block the body is all the remaining
bytes, not the empty body. -/
theorem parse_content_length_zero_takes_rest (bs : List Nat) (st : ScanState) (v : List Nat)
    (hscan : scanTop bs = .ok st)
    (hch : st.is_chunked = false)
    (hv : st.headers.get clKey = some v)
    (hv0 : parseUsize v = some 0)
    (hN : 0 < bs.length - st.pos) :
    Response.parse bs
      = .ok ⟨st.status_code, st.status_message, st.headers, bs.drop st.pos⟩
    ∧ bs.drop st.pos ≠ [] := by
  obtain ⟨_, _, _, i4⟩ := scanTop_inv bs st hscan
  have hcl0 : st.content_length = 0 := by
    have h' := i4 v hv
    rw [hv0] at h'
    injection h' with h''
    exact h''.symm
  constructor
  · simp only [Response.parse, hscan]
    rw [if_neg (by simp [hch]), hcl0]
    rw [if_pos rfl]
    rw [if_pos (show st.pos + (bs.length - st.pos) ≤ bs.length by omega)]
    have htake : (bs.drop st.pos).take (bs.length - st.pos) = bs.drop st.pos := by
      apply List.take_of_length_le
      simp
    rw [htake]
  · apply List.ne_nil_of_length_pos
    simp only [List.length_drop]
    omega

def bsC10 : List Nat := ascii "HTTP/1.1 200 OK\r\nContent-Length: 0\r\n\r\nabc"

def stC10 : ScanState := ⟨200, ascii "OK", ⟨[(clKey, ascii "0")]⟩, 0, false, 38⟩

/-- Witness for C10 at a concrete buffer with `Content-Length: 0` and
three trailing body bytes. -/
theorem parse_content_length_zero_takes_rest_witness :
    Response.parse bsC10 = .ok ⟨200, ascii "OK", ⟨[(clKey, ascii "0")]⟩, ascii "abc"⟩
    ∧ bsC10.drop stC10.pos ≠ [] := by
  have h := parse_content_length_zero_takes_rest bsC10 stC10 (ascii "0")
    (by decide) (by decide) (by decide) (by decide) (by decide)
  exact ⟨h.1.trans (by decide), h.2⟩
